import Mathlib

/-!
Shallow embedding of the retrieval-augmented chunk-and-search pipeline of
this repository (the `20-vector-db-learnings/1-simple-chromadb` package and
the streamed-generation parser of `15-1-llama-example/speech_to_text.py`),
together with theorems settling the spec claims.

External backends (the ChromaDB vector store reached through
`collection.add` / `collection.query` / `chromadb.PersistentClient`, and the
sentence-transformer embedder) are not code of this repository; where a
claim depends on their behaviour they are modelled from the spec's stated
contract (section 4.3 of the spec) and marked `Modelled from the spec:` in
their doc comments.  Floating-point vector components and distances are
modelled by an arbitrary linearly ordered type, and the distance function
itself is an opaque parameter of the theorems, since no claim depends on
the metric, only on ordering and cardinality.
-/

/- ### Python strings -/

/-- Python `str`, modelled as its sequence of characters (Lean's `String`
operations do not reduce in the kernel, so the embedding works on the
character list; string literals enter through `String.data`). -/
abbrev Str := List Char

/- ### Streamed generation parsing (`speech_to_text.py`, `query_ollama_stream`) -/

/-- One line of the streamed HTTP response body in
`query_ollama_stream` (`speech_to_text.py` lines 51-61).  A line is either
empty (skipped by `if line:`), not valid JSON (`json.JSONDecodeError` is
caught and the line skipped), or a well-formed record carrying a partial
`response` text and a `done` flag (absent fields default to `""` / false,
matching `chunk.get('response', '')` and `chunk.get('done', False)`). -/
inductive StreamLine where
  | empty : StreamLine
  | malformed : StreamLine
  | record (response : Str) (done : Bool) : StreamLine
deriving DecidableEq, Repr

/-- The accumulation loop of `query_ollama_stream` (`speech_to_text.py`
lines 50-62): start from `""`, skip empty and malformed lines, append each
well-formed record's `response`, and stop right after a record whose `done`
flag is true (`break` follows the `+=`, so the terminating record's text is
included and nothing after it is read). -/
def query_ollama_stream : List StreamLine → Str
  | [] => []
  | StreamLine.empty :: rest => query_ollama_stream rest
  | StreamLine.malformed :: rest => query_ollama_stream rest
  | StreamLine.record r d :: rest =>
      if d then r else r ++ query_ollama_stream rest

/-- Concatenation of the `response` fields of the well-formed records of a
stream, in order; the reference value the spec compares the parser's
accumulated result against. -/
def wellFormedConcat : List StreamLine → Str
  | [] => []
  | StreamLine.record r _ :: rest => r ++ wellFormedConcat rest
  | _ :: rest => wellFormedConcat rest

/-- No record of the stream carries a true `done` flag. -/
def noDone (ls : List StreamLine) : Bool :=
  ls.all (fun l => match l with
    | StreamLine.record _ true => false
    | _ => true)

/-- Python `str.split("\n\n")` (the separator used by `load_text`): cut at
every non-overlapping, leftmost-first occurrence of the two-character
separator; adjacent separators and separators at either end produce empty
fields, exactly as in Python. -/
def splitOnDoubleNewline : Str → List Str
  | [] => [[]]
  | '\n' :: '\n' :: rest => [] :: splitOnDoubleNewline rest
  | a :: rest =>
      let r := splitOnDoubleNewline rest
      (a :: r.headD []) :: r.tail

/-- Python `str.split("\n")` (the splitter of the second, shadowing
`add_documents` in `chroma_add.py`, line 55): cut at every newline; empty
fields are kept. -/
def splitOnNewline : Str → List Str
  | [] => [[]]
  | '\n' :: rest => [] :: splitOnNewline rest
  | a :: rest =>
      let r := splitOnNewline rest
      (a :: r.headD []) :: r.tail

/-- The ASCII whitespace characters removed by Python `str.strip()`. -/
def isPyWhitespace (c : Char) : Bool :=
  c == ' ' || c == '\t' || c == '\n' || c == '\r' || c == '\x0b' || c == '\x0c'

/-- Python `str.strip()`: drop leading and trailing whitespace. -/
def pyStrip (s : Str) : Str :=
  ((s.dropWhile isPyWhitespace).reverse.dropWhile isPyWhitespace).reverse

/- ### Chunker (`chroma_add.py`) -/

/-- The pure chunking core of `load_text` (`chroma_add.py` lines 6-15); the
file read is I/O, so the file's text is the argument here.  The source is
`[chunk.strip() for chunk in text.split('\n\n') if chunk.strip()]`:
split on the two-character separator, strip surrounding whitespace, and
keep only the results that are non-empty after stripping (Python filters on
the truthiness of `chunk.strip()`, i.e. on non-emptiness). -/
def load_text (text : Str) : List Str :=
  ((splitOnDoubleNewline text).map pyStrip).filter (fun c => c ≠ [])

example : load_text "A\n\nB\n\nC".data = ["A".data, "B".data, "C".data] := by decide
example : load_text "  \n\n \t ".data = [] := by decide

/- ### Index store data model (ChromaDB collections).

Vector components and distances are floating-point numbers in the code; no
claim depends on anything but their linear order, so they are modelled by
an arbitrary linearly ordered type `α` (witnesses instantiate `α := ℤ`).
-/

/-- A metadata value: the metadatas built by `add_documents` hold a string
(`"source": file_path`) and an integer (`"chunk_index": i`). -/
inductive MetaVal where
  | str (s : Str) : MetaVal
  | int (n : Nat) : MetaVal
deriving DecidableEq, Repr

/-- A metadata mapping, as a key-value list. -/
abbrev Meta := List (Str × MetaVal)

/-- One persisted entry of a collection: id, document text, embedding
vector and metadata.  Ids are modelled as natural numbers (the code's
`str(uuid.uuid4())` ids are opaque tokens only ever compared for
equality). -/
structure Entry (α : Type) where
  id : Nat
  doc : Str
  emb : List α
  meta : Meta
deriving DecidableEq, Repr

/-- The persistent client's state: the named collections, each with its
entries in insertion order.  Modelled from the spec: the on-disk layout is
owned by the vector-store backend; the spec only requires named,
independently addressable collections whose entries persist. -/
abbrev Store (α : Type) := List (Str × List (Entry α))

/-- Look up a collection by name (first binding wins). -/
def lookupColl {α : Type} : Store α → Str → Option (List (Entry α))
  | [], _ => none
  | (n, es) :: rest, name => if n = name then some es else lookupColl rest name

/-- Replace the entries of collection `name` (first binding), used to
commit an insert back into the client's state. -/
def setColl {α : Type} : Store α → Str → List (Entry α) → Store α
  | [], name, es => [(name, es)]
  | (n, old) :: rest, name, es =>
      if n = name then (n, es) :: rest else (n, old) :: setColl rest name es

/-- `get_collection` (`chroma_setup.py` lines 6-22): open the persistent
client and `try: get_collection(name) except: create_collection(name)`.
Modelled from the spec: the ChromaDB client is external; per the spec the
open is idempotent open-or-create — return the existing collection when the
name is bound, otherwise bind the name to a fresh empty collection.
Returns the (possibly extended) client state and the opened collection's
entries. -/
def get_collection {α : Type} (st : Store α) (name : Str) :
    Store α × List (Entry α) :=
  match lookupColl st name with
  | some es => (st, es)
  | none => (st ++ [(name, [])], [])

/-- Errors of the index-store contract (spec section 4.3 and 7) that the
modelled backend can raise. -/
inductive DbError where
  | duplicateId : DbError
deriving DecidableEq, Repr

/-- `collection.add` — Modelled from the spec: the ChromaDB insert is
external; per the spec (section 4.3) it appends the new entries in caller
order and fails with `DuplicateIdError` when an id already exists in the
collection (or is repeated in the batch). -/
def collection_add {α : Type} (es new : List (Entry α)) :
    Except DbError (List (Entry α)) :=
  if ((es ++ new).map Entry.id).Nodup then Except.ok (es ++ new)
  else Except.error DbError.duplicateId

/-- The batch of entries one `add_documents` call hands to
`collection.add`: the index-aligned zip of `documents` (the unfiltered
newline chunks), `embeddings`, the `{"source", "chunk_index"}` `metadatas`,
and the `uuid.uuid4()` `ids` (one fresh id per chunk, drawn from the
never-repeating supply starting at `nextId`). -/
def newEntries {α : Type} (embed : Str → List α) (content file_path : Str)
    (nextId : Nat) : List (Entry α) :=
  let chunks := splitOnNewline content
  let embeddings := chunks.map embed
  let metadatas := (List.range chunks.length).map
    (fun i => [("source".data, MetaVal.str file_path),
               ("chunk_index".data, MetaVal.int i)])
  (List.range chunks.length).map
    (fun i => { id := nextId + i,
                doc := chunks.getD i [],
                emb := embeddings.getD i [],
                meta := metadatas.getD i [] : Entry α })

/-- The second (shadowing, hence effective) `add_documents`
(`chroma_add.py` lines 44-71): split the file content on `"\n"` (no
filtering), embed every chunk, open or create the collection, build
`{"source": file_path, "chunk_index": i}` metadata per chunk, draw one
fresh id per chunk, and `collection.add` everything.  `embed` is the
external sentence-transformer backend, an order-preserving per-text map
(spec section 4.2); `nextId` models the `uuid.uuid4()` supply: each call
consumes one fresh, never-repeating id per chunk.  Returns the updated
client state and id supply. -/
def add_documents {α : Type} (embed : Str → List α) (content file_path : Str)
    (collection_name : Str) (st : Store α) (nextId : Nat) :
    Except DbError (Store α × Nat) :=
  let chunks := splitOnNewline content
  let p := get_collection st collection_name
  match collection_add p.2 (newEntries embed content file_path nextId) with
  | Except.ok es =>
      Except.ok (setColl p.1 collection_name es, nextId + chunks.length)
  | Except.error e => Except.error e

/- ### Query path (`chroma_query.py`) -/

/-- Does an entry's metadata satisfy a ChromaDB `where` filter?  Modelled
from the spec: filters are an equality predicate over the metadata mapping
(every key of the filter must be present with the given value). -/
def matchesWhere (f : Meta) (m : Meta) : Bool :=
  f.all (fun kv => decide ((kv.1, kv.2) ∈ m))

/-- The filtered candidates of a query, scored against the query vector
and ranked by ascending distance (stable: `insertionSort` keeps tied
entries in insertion order). -/
def rankedCandidates {α : Type} [LinearOrder α]
    (dist : List α → List α → α) (es : List (Entry α))
    (query_vec : List α) (wh : Option Meta) : List (Entry α × α) :=
  let cands := match wh with
    | none => es
    | some f => es.filter (fun e => matchesWhere f e.meta)
  List.insertionSort (fun a b => a.2 ≤ b.2)
    (cands.map (fun e => (e, dist query_vec e.emb)))

/-- `collection.query` — Modelled from the spec: the nearest-neighbour
search is owned by the vector-store backend; per the spec (section 4.3) it
applies the metadata filter before ranking (non-matching candidates are
excluded, never down-ranked), orders the remaining candidates by ascending
distance to the query vector with ties broken by insertion order (stable),
keeps at most `n_results`, and returns the parallel lists requested by
`include=["documents", "distances", "metadatas"]`.  The distance function
`dist` is an opaque parameter (the backend's cosine distance). -/
def collection_query {α : Type} [LinearOrder α]
    (dist : List α → List α → α) (es : List (Entry α))
    (query_vec : List α) (n_results : Nat) (wh : Option Meta) :
    List Str × List α × List Meta :=
  let top := (rankedCandidates dist es query_vec wh).take n_results
  (top.map (fun t => t.1.doc), top.map (fun t => t.2), top.map (fun t => t.1.meta))

/-- `search` (`chroma_query.py` lines 6-42): embed the query (a batch of
one), open the collection, run `collection.query` with `n_results = top_k`
and `where = filters`, then zip the returned documents, distances and
metadatas into result tuples.  The source file as committed is missing a
comma after the `include=[...]` argument (line 30) and between `distances`
and `metadatas` (line 42), so the module does not parse; this embedding
repairs those two slips in the only way the surrounding code and docstring
admit. -/
def search {α : Type} [LinearOrder α]
    (embed : Str → List α) (dist : List α → List α → α)
    (query : Str) (top_k : Nat) (collection_name : Str) (filters : Option Meta)
    (st : Store α) : List (Str × α × Meta) :=
  let query_vec := ([query].map embed).getD 0 []
  let p := get_collection st collection_name
  let results := collection_query dist p.2 query_vec top_k filters
  results.1.zip (results.2.1.zip results.2.2)

/- ### Helper lemmas -/

lemma dropWhile_eq_cons_head_false {β : Type} {p : β → Bool} :
    ∀ {l r : List β} {a : β}, l.dropWhile p = a :: r → p a = false := by
  intro l
  induction l with
  | nil => intro r a h; simp at h
  | cons b t ih =>
    intro r a h
    cases hb : p b with
    | true => rw [List.dropWhile_cons, hb] at h; simp at h; exact ih h
    | false =>
      rw [List.dropWhile_cons, hb] at h
      simp at h
      rw [← h.1]
      exact hb

lemma pyStrip_ne_nil_has_nonws {s : Str} (h : pyStrip s ≠ []) :
    ∃ c ∈ pyStrip s, isPyWhitespace c = false := by
  unfold pyStrip at h ⊢
  cases hv : (s.dropWhile isPyWhitespace).reverse.dropWhile isPyWhitespace with
  | nil => rw [hv] at h; simp at h
  | cons a r => exact ⟨a, by simp, dropWhile_eq_cons_head_false hv⟩

lemma map_getD_range {β : Type} (l : List β) (d : β) :
    (List.range l.length).map (fun i => l.getD i d) = l := by
  induction l with
  | nil => rfl
  | cons a t ih =>
    rw [List.length_cons, List.range_succ_eq_map, List.map_cons, List.map_map]
    simp only [Function.comp_def, List.getD_cons_zero, List.getD_cons_succ]
    rw [ih]

lemma newEntries_map_doc {α : Type} (embed : Str → List α) (content fp : Str)
    (n : Nat) :
    (newEntries embed content fp n).map Entry.doc = splitOnNewline content := by
  unfold newEntries
  rw [List.map_map]
  exact map_getD_range (splitOnNewline content) []

lemma newEntries_length {α : Type} (embed : Str → List α) (content fp : Str)
    (n : Nat) :
    (newEntries embed content fp n).length = (splitOnNewline content).length := by
  unfold newEntries
  rw [List.length_map, List.length_range]

lemma newEntries_ids_nodup {α : Type} (embed : Str → List α) (content fp : Str)
    (n : Nat) : ((newEntries embed content fp n).map Entry.id).Nodup := by
  unfold newEntries
  rw [List.map_map]
  exact (List.nodup_range _).map (fun i j hij => Nat.add_left_cancel hij)

lemma newEntries_id_bounds {α : Type} {embed : Str → List α} {content fp : Str}
    {n : Nat} {e : Entry α} (he : e ∈ newEntries embed content fp n) :
    n ≤ e.id ∧ e.id < n + (splitOnNewline content).length := by
  unfold newEntries at he
  obtain ⟨i, hi, rfl⟩ := List.mem_map.1 he
  have h2 := List.mem_range.1 hi
  dsimp only
  omega

lemma lookupColl_mem {α : Type} {st : Store α} {name : Str}
    {es : List (Entry α)} (h : lookupColl st name = some es) : (name, es) ∈ st := by
  induction st with
  | nil => simp [lookupColl] at h
  | cons q rest ih =>
    obtain ⟨n, old⟩ := q
    by_cases hn : n = name
    · rw [lookupColl, if_pos hn] at h
      subst hn
      obtain rfl : old = es := by simpa using h
      exact List.mem_cons_self _ _
    · rw [lookupColl, if_neg hn] at h
      exact List.mem_cons_of_mem _ (ih h)

lemma lookupColl_none_not_mem {α : Type} {st : Store α} {name : Str}
    (h : lookupColl st name = none) : name ∉ st.map Prod.fst := by
  induction st with
  | nil => simp
  | cons q rest ih =>
    obtain ⟨n, old⟩ := q
    by_cases hn : n = name
    · rw [lookupColl, if_pos hn] at h
      simp at h
    · rw [lookupColl, if_neg hn] at h
      simp only [List.map_cons, List.mem_cons]
      rintro (rfl | hx)
      · exact hn rfl
      · exact ih h hx

lemma lookupColl_append_none {α : Type} {st : Store α} {name : Str}
    (l : Store α) (h : lookupColl st name = none) :
    lookupColl (st ++ l) name = lookupColl l name := by
  induction st with
  | nil => rfl
  | cons q rest ih =>
    obtain ⟨n, old⟩ := q
    by_cases hn : n = name
    · rw [lookupColl, if_pos hn] at h; simp at h
    · rw [lookupColl, if_neg hn] at h
      rw [List.cons_append, lookupColl, if_neg hn]
      exact ih h

lemma lookupColl_setColl {α : Type} (st : Store α) (name : Str)
    (es : List (Entry α)) : lookupColl (setColl st name es) name = some es := by
  induction st with
  | nil => simp [setColl, lookupColl]
  | cons q rest ih =>
    obtain ⟨n, old⟩ := q
    by_cases hn : n = name
    · rw [setColl, if_pos hn, lookupColl, if_pos hn]
    · rw [setColl, if_neg hn, lookupColl, if_neg hn]
      exact ih

lemma mem_setColl {α : Type} {st : Store α} {name : Str} {es : List (Entry α)}
    {q : Str × List (Entry α)} (hq : q ∈ setColl st name es) :
    q = (name, es) ∨ q ∈ st := by
  induction st with
  | nil => simp [setColl] at hq; exact Or.inl hq
  | cons p rest ih =>
    obtain ⟨n, old⟩ := p
    by_cases hn : n = name
    · rw [setColl, if_pos hn] at hq
      rcases List.mem_cons.1 hq with rfl | hx
      · exact Or.inl (by rw [hn])
      · exact Or.inr (List.mem_cons_of_mem _ hx)
    · rw [setColl, if_neg hn] at hq
      rcases List.mem_cons.1 hq with rfl | hx
      · exact Or.inr (List.mem_cons_self _ _)
      · rcases ih hx with h1 | h2
        · exact Or.inl h1
        · exact Or.inr (List.mem_cons_of_mem _ h2)

lemma get_collection_lookup {α : Type} (st : Store α) (name : Str) :
    lookupColl (get_collection st name).1 name = some (get_collection st name).2 := by
  unfold get_collection
  cases hl : lookupColl st name with
  | some es => simpa using hl
  | none =>
    simp only
    rw [lookupColl_append_none _ hl, lookupColl, if_pos rfl]

/-- Well-formedness of the modelled client state relative to the id supply:
every collection's ids are pairwise distinct and below the next fresh id.
This is the contract of the `uuid.uuid4()` supply (already-persisted ids
were drawn earlier, and uuid ids never repeat). -/
def StoreFresh {α : Type} (st : Store α) (n : Nat) : Prop :=
  ∀ p ∈ st, (p.2.map Entry.id).Nodup ∧ ∀ e ∈ p.2, e.id < n

lemma get_collection_fresh {α : Type} {st : Store α} {n : Nat} (name : Str)
    (h : StoreFresh st n) :
    ((get_collection st name).2.map Entry.id).Nodup ∧
      (∀ e ∈ (get_collection st name).2, e.id < n) ∧
      StoreFresh (get_collection st name).1 n := by
  unfold get_collection
  cases hl : lookupColl st name with
  | some es =>
    have hm := h _ (lookupColl_mem hl)
    exact ⟨hm.1, hm.2, h⟩
  | none =>
    refine ⟨by simp, by simp, ?_⟩
    intro p hp
    rcases List.mem_append.1 hp with h1 | h2
    · exact h p h1
    · obtain rfl : p = (name, []) := by simpa using h2
      exact ⟨by simp, by simp⟩

lemma collection_add_newEntries_ok {α : Type} (embed : Str → List α)
    (content fp : Str) {es : List (Entry α)} {n : Nat}
    (h1 : (es.map Entry.id).Nodup) (h2 : ∀ e ∈ es, e.id < n) :
    ((es ++ newEntries embed content fp n).map Entry.id).Nodup ∧
      collection_add es (newEntries embed content fp n) =
        Except.ok (es ++ newEntries embed content fp n) := by
  have hnodup : ((es ++ newEntries embed content fp n).map Entry.id).Nodup := by
    rw [List.map_append, List.nodup_append]
    refine ⟨h1, newEntries_ids_nodup embed content fp n, ?_⟩
    intro a ha hb
    obtain ⟨e, he, rfl⟩ := List.mem_map.1 ha
    obtain ⟨e', he', hid⟩ := List.mem_map.1 hb
    have hlow := h2 e he
    have hhigh := (newEntries_id_bounds he').1
    omega
  refine ⟨hnodup, ?_⟩
  unfold collection_add
  rw [if_pos hnodup]

lemma StoreFresh_setColl {α : Type} {st : Store α} {n m : Nat} {name : Str}
    {es : List (Entry α)} (h : StoreFresh st n) (hnm : n ≤ m)
    (hes : (es.map Entry.id).Nodup) (hlt : ∀ e ∈ es, e.id < m) :
    StoreFresh (setColl st name es) m := by
  intro p hp
  rcases mem_setColl hp with rfl | hmem
  · exact ⟨hes, hlt⟩
  · have hm := h p hmem
    exact ⟨hm.1, fun e he => lt_of_lt_of_le (hm.2 e he) hnm⟩

/-- One successful `add_documents` call: under a fresh id supply it never
fails with `DuplicateIdError`; it appends its batch to the opened
collection, commits, and advances the id supply by the number of chunks. -/
lemma add_documents_ok {α : Type} (embed : Str → List α)
    (content fp name : Str) (st : Store α) (n : Nat) (h : StoreFresh st n) :
    add_documents embed content fp name st n =
      Except.ok (setColl (get_collection st name).1 name
          ((get_collection st name).2 ++ newEntries embed content fp n),
        n + (splitOnNewline content).length) ∧
      StoreFresh (setColl (get_collection st name).1 name
          ((get_collection st name).2 ++ newEntries embed content fp n))
        (n + (splitOnNewline content).length) := by
  obtain ⟨hnd, hlt, hfr⟩ := get_collection_fresh name h
  obtain ⟨hnodup, hadd⟩ := collection_add_newEntries_ok embed content fp hnd hlt
  constructor
  · unfold add_documents
    dsimp only
    rw [hadd]
  · refine StoreFresh_setColl hfr (Nat.le_add_right _ _) hnodup ?_
    intro e he
    rcases List.mem_append.1 he with h1 | h2
    · have := hlt e h1
      omega
    · exact (newEntries_id_bounds h2).2

instance {α : Type} [LinearOrder α] :
    IsTotal (Entry α × α) (fun a b => a.2 ≤ b.2) :=
  ⟨fun a b => le_total a.2 b.2⟩

instance {α : Type} [LinearOrder α] :
    IsTrans (Entry α × α) (fun a b => a.2 ≤ b.2) :=
  ⟨fun _ _ _ h1 h2 => le_trans h1 h2⟩

/-- `search` unrolled: the zip of the three parallel result lists
reassembles the ranked, truncated candidate list into result tuples. -/
lemma search_eq {α : Type} [LinearOrder α] (embed : Str → List α)
    (dist : List α → List α → α) (q : Str) (top_k : Nat) (name : Str)
    (filters : Option Meta) (st : Store α) :
    search embed dist q top_k name filters st =
      ((rankedCandidates dist (get_collection st name).2 (embed q) filters).take
          top_k).map (fun t => (t.1.doc, t.2, t.1.meta)) := by
  unfold search collection_query
  dsimp only
  rw [List.zip_map', List.zip_map']
  simp [List.map_map]

lemma rankedCandidates_sorted {α : Type} [LinearOrder α]
    (dist : List α → List α → α) (es : List (Entry α)) (qv : List α)
    (wh : Option Meta) :
    List.Sorted (fun a b : Entry α × α => a.2 ≤ b.2)
      (rankedCandidates dist es qv wh) :=
  List.sorted_insertionSort _ _

lemma rankedCandidates_perm_none {α : Type} [LinearOrder α]
    (dist : List α → List α → α) (es : List (Entry α)) (qv : List α) :
    List.Perm (rankedCandidates dist es qv none)
      (es.map (fun e => (e, dist qv e.emb))) :=
  List.perm_insertionSort _ _

/- ### Claim theorems -/

/-- C2: chunking with strategy `paragraph` splits on blank-line boundaries,
drops empty and whitespace-only results, and preserves order — the output
is an order-preserving subsequence of the stripped split fields, and every
kept chunk is non-empty and contains a non-whitespace character; in
particular `"A\n\nB\n\nC"` chunks to `["A", "B", "C"]`. -/
theorem paragraph_chunking_correct (text : Str) :
    List.Sublist (load_text text) ((splitOnDoubleNewline text).map pyStrip) ∧
    (∀ c ∈ load_text text, c ≠ [] ∧ ∃ ch ∈ c, isPyWhitespace ch = false) ∧
    load_text "A\n\nB\n\nC".data = ["A".data, "B".data, "C".data] := by
  refine ⟨List.filter_sublist _, ?_, by decide⟩
  intro c hc
  have hne : c ≠ [] := by simpa using List.of_mem_filter hc
  obtain ⟨p, hp, hpc⟩ := List.mem_map.1 (List.mem_of_mem_filter hc)
  subst hpc
  exact ⟨hne, pyStrip_ne_nil_has_nonws hne⟩

/-- C4 counterexample: on an input of only whitespace and blank lines the
chunker returns the empty sequence — there is no `EmptyInputError` anywhere
in the code, so the claim's failure mode does not exist. -/
theorem chunker_empty_input_cex : load_text "  \n\n \t ".data = [] := by decide

/-- C4 amended: when the input yields zero non-empty chunks after
filtering, `load_text` returns the empty sequence (it is a total function;
no error is raised). -/
theorem chunker_empty_input_returns_nil (text : Str)
    (h : ∀ p ∈ splitOnDoubleNewline text, pyStrip p = []) :
    load_text text = [] := by
  unfold load_text
  refine List.filter_eq_nil_iff.mpr ?_
  intro c hc
  obtain ⟨p, hp, rfl⟩ := List.mem_map.1 hc
  simp [h p hp]

theorem chunker_empty_input_returns_nil_witness :
    (∀ p ∈ splitOnDoubleNewline "  \n\n \t ".data, pyStrip p = []) ∧
    load_text "  \n\n \t ".data = [] :=
  ⟨by decide, chunker_empty_input_returns_nil "  \n\n \t ".data (by decide)⟩

/-- C3 counterexample: the effective (second) `add_documents` splits the
file content `"A\n\nB"` into `["A", "", "B"]` and inserts the empty chunk —
it does not apply the paragraph strategy's filtering of empty and
whitespace-only lines. -/
theorem line_chunking_unfiltered_cex :
    (Except.map (fun p => (lookupColl p.1 "c".data).map (fun es => es.map Entry.doc))
        (add_documents (fun _ => ([] : List ℤ)) "A\n\nB".data "f".data "c".data [] 0))
      = Except.ok (some ["A".data, [], "B".data]) ∧
    ([] : Str) ∈ splitOnNewline "A\n\nB".data ∧
    splitOnNewline "A\n\nB".data ≠
      ((splitOnNewline "A\n\nB".data).map pyStrip).filter (fun c => c ≠ []) := by
  refine ⟨by rfl, by decide, by decide⟩

/-- C3 amended: the `line` strategy splits on line boundaries but applies
no filtering at all — every successful `add_documents` call appends exactly
the raw `content.split("\n")` fields (empty and whitespace-only lines
included, in order) to the opened collection's documents. -/
theorem line_chunking_unfiltered {α : Type} (embed : Str → List α)
    (content fp name : Str) (st st₁ : Store α) (n n₁ : Nat)
    (h : add_documents embed content fp name st n = Except.ok (st₁, n₁)) :
    (lookupColl st₁ name).map (fun es => es.map Entry.doc) =
      some ((get_collection st name).2.map Entry.doc ++ splitOnNewline content) ∧
    n₁ = n + (splitOnNewline content).length := by
  unfold add_documents at h
  dsimp only at h
  cases hadd : collection_add (get_collection st name).2
      (newEntries embed content fp n) with
  | error e => rw [hadd] at h; exact absurd h (by simp)
  | ok es =>
    rw [hadd] at h
    obtain ⟨rfl, rfl⟩ : setColl (get_collection st name).1 name es = st₁ ∧
        n + (splitOnNewline content).length = n₁ := by
      constructor <;> [exact congrArg Prod.fst (Except.ok.inj h);
        exact congrArg Prod.snd (Except.ok.inj h)]
    have hes : es = (get_collection st name).2 ++ newEntries embed content fp n := by
      unfold collection_add at hadd
      by_cases hnd : (((get_collection st name).2 ++
          newEntries embed content fp n).map Entry.id).Nodup
      · rw [if_pos hnd] at hadd; exact (Except.ok.inj hadd).symm
      · rw [if_neg hnd] at hadd; exact absurd hadd (by simp)
    subst hes
    rw [lookupColl_setColl]
    simp [newEntries_map_doc]

/-- The state the witness run of `add_documents` is expected to commit. -/
def lineChunkWitnessStore : Store ℤ :=
  [("c".data,
    [{ id := 0, doc := "A".data, emb := [],
       meta := [("source".data, MetaVal.str "f".data),
                ("chunk_index".data, MetaVal.int 0)] },
     { id := 1, doc := [], emb := [],
       meta := [("source".data, MetaVal.str "f".data),
                ("chunk_index".data, MetaVal.int 1)] },
     { id := 2, doc := "B".data, emb := [],
       meta := [("source".data, MetaVal.str "f".data),
                ("chunk_index".data, MetaVal.int 2)] }])]

theorem line_chunking_unfiltered_witness :
    add_documents (fun _ => ([] : List ℤ)) "A\n\nB".data "f".data "c".data [] 0 =
      Except.ok (lineChunkWitnessStore, 3) ∧
    ((lookupColl lineChunkWitnessStore "c".data).map (fun es => es.map Entry.doc) =
        some ((get_collection ([] : Store ℤ) "c".data).2.map Entry.doc ++
          splitOnNewline "A\n\nB".data) ∧
      3 = 0 + (splitOnNewline "A\n\nB".data).length) :=
  ⟨by rfl,
    line_chunking_unfiltered (fun _ => ([] : List ℤ)) "A\n\nB".data "f".data
      "c".data [] lineChunkWitnessStore 0 3 (by rfl)⟩

/-- C8: a record with `done` true terminates the stream: for any stream
whose earlier records are not done-marked, the accumulated answer is the
concatenation of the earlier well-formed fragments followed by the
terminating record's partial text, whatever records follow (they contribute
nothing). -/
theorem stream_done_terminates (pre post : List StreamLine) (r : Str)
    (h : noDone pre = true) :
    query_ollama_stream (pre ++ StreamLine.record r true :: post) =
      wellFormedConcat pre ++ r := by
  induction pre with
  | nil => simp [query_ollama_stream, wellFormedConcat]
  | cons a t ih =>
    rw [noDone, List.all_cons, Bool.and_eq_true] at h
    have ht : noDone t = true := h.2
    cases a with
    | empty => simpa [query_ollama_stream, wellFormedConcat] using ih ht
    | malformed => simpa [query_ollama_stream, wellFormedConcat] using ih ht
    | record s d =>
      cases d with
      | true => simp at h
      | false =>
        simp [query_ollama_stream, wellFormedConcat, ih ht, List.append_assoc]

theorem stream_done_terminates_witness :
    noDone [StreamLine.record "Hello ".data false, StreamLine.malformed] = true ∧
    query_ollama_stream
        ([StreamLine.record "Hello ".data false, StreamLine.malformed] ++
          StreamLine.record "world".data true ::
            [StreamLine.record "IGNORED".data false]) =
      wellFormedConcat [StreamLine.record "Hello ".data false, StreamLine.malformed]
        ++ "world".data :=
  ⟨by decide,
    stream_done_terminates [StreamLine.record "Hello ".data false, StreamLine.malformed]
      [StreamLine.record "IGNORED".data false] "world".data (by decide)⟩

/-- C9: a malformed record in a streamed response is skipped, never fatal —
removing it does not change the accumulated answer — and on any stream with
no done-marked record the accumulated answer is exactly the concatenation
of the text fragments of the well-formed records. -/
theorem stream_malformed_skipped (pre post ls : List StreamLine)
    (h : noDone ls = true) :
    query_ollama_stream (pre ++ StreamLine.malformed :: post) =
      query_ollama_stream (pre ++ post) ∧
    query_ollama_stream ls = wellFormedConcat ls := by
  constructor
  · induction pre with
    | nil => simp [query_ollama_stream]
    | cons a t ih =>
      cases a with
      | empty => simpa [query_ollama_stream] using ih
      | malformed => simpa [query_ollama_stream] using ih
      | record s d =>
        cases d with
        | true => simp [query_ollama_stream]
        | false => simp [query_ollama_stream, ih]
  · induction ls with
    | nil => rfl
    | cons a t ih =>
      rw [noDone, List.all_cons, Bool.and_eq_true] at h
      have ht := ih h.2
      cases a with
      | empty => simpa [query_ollama_stream, wellFormedConcat] using ht
      | malformed => simpa [query_ollama_stream, wellFormedConcat] using ht
      | record s d =>
        cases d with
        | true => simp at h
        | false => simp [query_ollama_stream, wellFormedConcat, ht]

theorem stream_malformed_skipped_witness :
    noDone [StreamLine.record "a".data false, StreamLine.empty,
      StreamLine.record "b".data false] = true ∧
    (query_ollama_stream
        ([StreamLine.record "x".data false] ++ StreamLine.malformed ::
          [StreamLine.record "y".data false]) =
      query_ollama_stream
        ([StreamLine.record "x".data false] ++ [StreamLine.record "y".data false]) ∧
    query_ollama_stream [StreamLine.record "a".data false, StreamLine.empty,
        StreamLine.record "b".data false] =
      wellFormedConcat [StreamLine.record "a".data false, StreamLine.empty,
        StreamLine.record "b".data false]) :=
  ⟨by decide,
    stream_malformed_skipped [StreamLine.record "x".data false]
      [StreamLine.record "y".data false]
      [StreamLine.record "a".data false, StreamLine.empty,
        StreamLine.record "b".data false] (by decide)⟩

lemma get_collection_of_lookup {α : Type} {st : Store α} {name : Str}
    {es : List (Entry α)} (h : lookupColl st name = some es) :
    get_collection st name = (st, es) := by
  unfold get_collection
  rw [h]

/-- C5: `search` returns at most `top_k` results, and their distances are
in ascending (non-decreasing) order — rank order is ascending distance. -/
theorem search_ranked_bounded {α : Type} [LinearOrder α] (embed : Str → List α)
    (dist : List α → List α → α) (q : Str) (top_k : Nat) (name : Str)
    (filters : Option Meta) (st : Store α) (h : 0 < top_k) :
    (search embed dist q top_k name filters st).length ≤ top_k ∧
    List.Sorted (fun a b : α => a ≤ b)
      ((search embed dist q top_k name filters st).map (fun t => t.2.1)) := by
  rw [search_eq]
  constructor
  · rw [List.length_map, List.length_take]
    exact min_le_left _ _
  · rw [List.map_map]
    have hs := rankedCandidates_sorted dist (get_collection st name).2 (embed q) filters
    have ht : List.Pairwise (fun a b : Entry α × α => a.2 ≤ b.2)
        ((rankedCandidates dist (get_collection st name).2 (embed q) filters).take
          top_k) :=
      hs.sublist (List.take_sublist _ _)
    exact List.Pairwise.map _ (fun a b hab => hab) ht

/-- Embedder used by the concrete witness runs: one-dimensional, the
chunk's length. -/
def witnessEmbed : Str → List ℤ := fun s => [(s.length : ℤ)]

/-- Distance used by the concrete witness runs: squared Euclidean over the
aligned coordinates. -/
def witnessDist : List ℤ → List ℤ → ℤ :=
  fun v w => ((v.zip w).map (fun p => (p.1 - p.2) * (p.1 - p.2))).sum

/-- A concrete one-collection client state for the witness runs. -/
def witnessStore : Store ℤ :=
  [("c".data,
    [{ id := 10, doc := "AA".data, emb := [2],
       meta := [("source".data, MetaVal.str "f".data),
                ("chunk_index".data, MetaVal.int 0)] },
     { id := 11, doc := "B".data, emb := [1],
       meta := [("source".data, MetaVal.str "f".data),
                ("chunk_index".data, MetaVal.int 1)] },
     { id := 12, doc := "CCC".data, emb := [3],
       meta := [("source".data, MetaVal.str "f".data),
                ("chunk_index".data, MetaVal.int 2)] }])]

theorem search_ranked_bounded_witness :
    0 < 2 ∧
    ((search witnessEmbed witnessDist "B".data 2 "c".data none witnessStore).length ≤ 2 ∧
      List.Sorted (fun a b : ℤ => a ≤ b)
        ((search witnessEmbed witnessDist "B".data 2 "c".data none
          witnessStore).map (fun t => t.2.1))) :=
  ⟨by decide,
    search_ranked_bounded witnessEmbed witnessDist "B".data 2 "c".data none
      witnessStore (by decide)⟩

/-- C6: when the metadata filter excludes every entry of the collection,
`search` returns the empty sequence (it is a total function; no error is
raised); and in general the filter is applied before ranking — every
returned result's metadata satisfies the filter, non-matching candidates
are excluded outright. -/
theorem search_filter_excludes {α : Type} [LinearOrder α]
    (embed : Str → List α) (dist : List α → List α → α) (q : Str) (k : Nat)
    (name : Str) (f f' : Meta) (st st' : Store α)
    (h : ∀ e ∈ (get_collection st name).2, matchesWhere f e.meta = false) :
    search embed dist q k name (some f) st = [] ∧
    ∀ t ∈ search embed dist q k name (some f') st',
      matchesWhere f' t.2.2 = true := by
  constructor
  · rw [search_eq]
    have hfil : (get_collection st name).2.filter
        (fun e => matchesWhere f e.meta) = [] :=
      List.filter_eq_nil_iff.mpr (fun e he => by simp [h e he])
    unfold rankedCandidates
    dsimp only
    rw [hfil]
    simp [List.insertionSort]
  · intro t ht
    rw [search_eq] at ht
    obtain ⟨x, hx, rfl⟩ := List.mem_map.1 ht
    have hx1 : x ∈ rankedCandidates dist (get_collection st' name).2 (embed q)
        (some f') := (List.take_sublist _ _).subset hx
    unfold rankedCandidates at hx1
    dsimp only at hx1
    have hx2 := (List.perm_insertionSort _ _).subset hx1
    obtain ⟨e, he, rfl⟩ := List.mem_map.1 hx2
    simpa using List.of_mem_filter he

theorem search_filter_excludes_witness :
    (∀ e ∈ (get_collection witnessStore "c".data).2,
      matchesWhere [("source".data, MetaVal.str "OTHER".data)] e.meta = false) ∧
    (search witnessEmbed witnessDist "B".data 3 "c".data
        (some [("source".data, MetaVal.str "OTHER".data)]) witnessStore = [] ∧
      ∀ t ∈ search witnessEmbed witnessDist "B".data 3 "c".data
          (some [("chunk_index".data, MetaVal.int 1)]) witnessStore,
        matchesWhere [("chunk_index".data, MetaVal.int 1)] t.2.2 = true) :=
  ⟨by decide,
    search_filter_excludes witnessEmbed witnessDist "B".data 3 "c".data
      [("source".data, MetaVal.str "OTHER".data)]
      [("chunk_index".data, MetaVal.int 1)] witnessStore witnessStore (by decide)⟩

/-- C7: `get_collection` is idempotent open-or-create: a second open with
the same name changes nothing and yields the same entries, the name is
bound to exactly one collection (never two independent stores), entries
committed under the name are visible through a subsequent open, and the
modelled operation is total — the default open-or-create mode has no
`CollectionNotFoundError` path at all (`except:` catches every failure of
the must-exist lookup and creates the collection instead). -/
theorem open_or_create_idempotent {α : Type} (st : Store α) (name : Str)
    (h : (st.map Prod.fst).Nodup) :
    (get_collection (get_collection st name).1 name).1 = (get_collection st name).1 ∧
    (get_collection (get_collection st name).1 name).2 = (get_collection st name).2 ∧
    (((get_collection st name).1.map Prod.fst).Nodup ∧
      name ∈ (get_collection st name).1.map Prod.fst) ∧
    ∀ es : List (Entry α),
      (get_collection (setColl (get_collection st name).1 name es) name).2 = es := by
  have hlk := get_collection_lookup st name
  refine ⟨?_, ?_, ?_, ?_⟩
  · rw [get_collection_of_lookup hlk]
  · rw [get_collection_of_lookup hlk]
  · unfold get_collection
    cases hl : lookupColl st name with
    | some es =>
      exact ⟨h, List.mem_map.2 ⟨(name, es), lookupColl_mem hl, rfl⟩⟩
    | none =>
      have hnm := lookupColl_none_not_mem hl
      constructor
      · rw [List.map_append, List.nodup_append]
        refine ⟨h, by simp, ?_⟩
        intro a ha hb
        simp at hb
        subst hb
        exact hnm ha
      · simp
  · intro es
    rw [get_collection_of_lookup (lookupColl_setColl _ _ _)]

theorem open_or_create_idempotent_witness :
    ((witnessStore.map Prod.fst).Nodup) ∧
    ((get_collection (get_collection witnessStore "c".data).1 "c".data).1 =
        (get_collection witnessStore "c".data).1 ∧
      (get_collection (get_collection witnessStore "c".data).1 "c".data).2 =
        (get_collection witnessStore "c".data).2 ∧
      (((get_collection witnessStore "c".data).1.map Prod.fst).Nodup ∧
        "c".data ∈ (get_collection witnessStore "c".data).1.map Prod.fst) ∧
      ∀ es : List (Entry ℤ),
        (get_collection (setColl (get_collection witnessStore "c".data).1
          "c".data es) "c".data).2 = es) :=
  ⟨by decide, open_or_create_idempotent witnessStore "c".data (by decide)⟩

/-- C1: after inserting the N chunks of a file into a fresh collection via
`add_documents`, a `search` with `top_k ≥ N` and no metadata filter returns
all N inserted entries, each exactly once (a permutation of the inserted
(document, metadata) pairs), ordered by non-decreasing distance. -/
theorem roundtrip_search_returns_all {α : Type} [LinearOrder α]
    (embed : Str → List α) (dist : List α → List α → α)
    (content fp name q : Str) (top_k : Nat)
    (h : (splitOnNewline content).length ≤ top_k) :
    ∃ st₁ : Store α, ∃ n₁ : Nat,
      add_documents embed content fp name [] 0 = Except.ok (st₁, n₁) ∧
      ∃ es, lookupColl st₁ name = some es ∧
        es.map Entry.doc = splitOnNewline content ∧
        List.Perm
          ((search embed dist q top_k name none st₁).map (fun t => (t.1, t.2.2)))
          (es.map (fun e => (e.doc, e.meta))) ∧
        List.Sorted (fun a b : α => a ≤ b)
          ((search embed dist q top_k name none st₁).map (fun t => t.2.1)) := by
  have hfr : StoreFresh ([] : Store α) 0 := fun p hp => absurd hp (List.not_mem_nil p)
  obtain ⟨hok, _⟩ := add_documents_ok embed content fp name [] 0 hfr
  refine ⟨_, _, hok, _, lookupColl_setColl _ _ _, ?_, ?_, ?_⟩
  · rw [List.map_append, newEntries_map_doc,
      show (get_collection ([] : Store α) name).2 = [] from rfl]
    simp
  · rw [search_eq, get_collection_of_lookup (lookupColl_setColl _ _ _)]
    have hlen : (rankedCandidates dist
        ((get_collection ([] : Store α) name).2 ++ newEntries embed content fp 0)
        (embed q) none).length ≤ top_k := by
      rw [(rankedCandidates_perm_none _ _ _).length_eq, List.length_map,
        List.length_append, newEntries_length,
        show (get_collection ([] : Store α) name).2 = [] from rfl]
      simpa using h
    rw [List.take_of_length_le hlen, List.map_map]
    have hperm := (rankedCandidates_perm_none dist
        ((get_collection ([] : Store α) name).2 ++ newEntries embed content fp 0)
        (embed q)).map (fun t : Entry α × α => (t.1.doc, t.1.meta))
    simpa [List.map_map] using hperm
  · rw [search_eq, List.map_map]
    have hs := rankedCandidates_sorted dist
      ((get_collection (setColl (get_collection ([] : Store α) name).1 name
        ((get_collection ([] : Store α) name).2 ++ newEntries embed content fp 0))
        name).2) (embed q) none
    have ht := hs.sublist (List.take_sublist top_k _)
    exact List.Pairwise.map _ (fun a b hab => hab) ht

theorem roundtrip_search_returns_all_witness :
    (splitOnNewline "AA\nB".data).length ≤ 5 ∧
    (∃ st₁ : Store ℤ, ∃ n₁ : Nat,
      add_documents witnessEmbed "AA\nB".data "f".data "c".data [] 0 =
        Except.ok (st₁, n₁) ∧
      ∃ es, lookupColl st₁ "c".data = some es ∧
        es.map Entry.doc = splitOnNewline "AA\nB".data ∧
        List.Perm
          ((search witnessEmbed witnessDist "B".data 5 "c".data none st₁).map
            (fun t => (t.1, t.2.2)))
          (es.map (fun e => (e.doc, e.meta))) ∧
        List.Sorted (fun a b : ℤ => a ≤ b)
          ((search witnessEmbed witnessDist "B".data 5 "c".data none st₁).map
            (fun t => t.2.1))) :=
  ⟨by decide,
    roundtrip_search_returns_all witnessEmbed witnessDist "AA\nB".data "f".data
      "c".data "B".data 5 (by decide)⟩

/-- C10 (implicit): `add_documents` draws a fresh uuid id for every chunk
on every call, so ingesting the same file twice never fails with
`DuplicateIdError`: both calls succeed, the collection ends with every
chunk inserted twice (its document list is the previous documents followed
by the chunk list twice over), and all ids remain pairwise distinct —
ingestion is not idempotent. -/
theorem add_documents_not_idempotent {α : Type} (embed : Str → List α)
    (content fp name : Str) (st : Store α) (n : Nat) (h : StoreFresh st n) :
    ∃ st₁ n₁ st₂ n₂,
      add_documents embed content fp name st n = Except.ok (st₁, n₁) ∧
      add_documents embed content fp name st₁ n₁ = Except.ok (st₂, n₂) ∧
      ∃ es₂, lookupColl st₂ name = some es₂ ∧
        es₂.map Entry.doc =
          (get_collection st name).2.map Entry.doc ++
            splitOnNewline content ++ splitOnNewline content ∧
        (es₂.map Entry.id).Nodup := by
  obtain ⟨h1ok, h1fresh⟩ := add_documents_ok embed content fp name st n h
  obtain ⟨h2ok, h2fresh⟩ := add_documents_ok embed content fp name
    (setColl (get_collection st name).1 name
      ((get_collection st name).2 ++ newEntries embed content fp n))
    (n + (splitOnNewline content).length) h1fresh
  have hgc1 : get_collection
      (setColl (get_collection st name).1 name
        ((get_collection st name).2 ++ newEntries embed content fp n)) name =
      (setColl (get_collection st name).1 name
        ((get_collection st name).2 ++ newEntries embed content fp n),
       (get_collection st name).2 ++ newEntries embed content fp n) :=
    get_collection_of_lookup (lookupColl_setColl _ _ _)
  rw [hgc1] at h2ok h2fresh
  refine ⟨_, _, _, _, h1ok, h2ok, _, lookupColl_setColl _ _ _, ?_, ?_⟩
  · rw [List.map_append, List.map_append, newEntries_map_doc, newEntries_map_doc]
  · have hmem := h2fresh _ (lookupColl_mem (lookupColl_setColl
      (setColl (get_collection st name).1 name
        ((get_collection st name).2 ++ newEntries embed content fp n)) name
      (((get_collection st name).2 ++ newEntries embed content fp n) ++
        newEntries embed content fp (n + (splitOnNewline content).length))))
    exact hmem.1

theorem add_documents_not_idempotent_witness :
    StoreFresh ([] : Store ℤ) 0 ∧
    (∃ st₁ n₁ st₂ n₂,
      add_documents witnessEmbed "AA\nB".data "f".data "c".data ([] : Store ℤ) 0 =
        Except.ok (st₁, n₁) ∧
      add_documents witnessEmbed "AA\nB".data "f".data "c".data st₁ n₁ =
        Except.ok (st₂, n₂) ∧
      ∃ es₂, lookupColl st₂ "c".data = some es₂ ∧
        es₂.map Entry.doc =
          (get_collection ([] : Store ℤ) "c".data).2.map Entry.doc ++
            splitOnNewline "AA\nB".data ++ splitOnNewline "AA\nB".data ∧
        (es₂.map Entry.id).Nodup) :=
  ⟨fun p hp => absurd hp (List.not_mem_nil p),
    add_documents_not_idempotent witnessEmbed "AA\nB".data "f".data "c".data []
      0 (fun p hp => absurd hp (List.not_mem_nil p))⟩
